import Mathlib

/-!
  # Shallow embedding of the kids_blockchain ledger core

  This file models `src/kids_blockchain/core.py`: the `Transaction` and
  `Block` records, and the `Blockchain` aggregate with user registration,
  transaction admission, proof-of-work mining, balance computation and
  whole-state export/import.

  Modelling choices:
  * Python floats are modelled as exact rationals; `round(x, 8)` becomes
    `round8`, rounding to the nearest multiple of 10 ^ (-8).
  * The SHA-256 digest of the serialized block fields (`_hash_block`) is an
    opaque function parameter `H : HashFn`: every theorem holds for an
    arbitrary digest function, which is all the claims use about it.
  * The wall clock (`_now`) is threaded as explicit timestamp arguments, one
    per `_now()` call site in the source.
  * The `while` loop of the nonce search is given explicit fuel; running out
    of fuel models divergence and produces no result, mirroring a loop that
    never returns.
  * `float(amount)` over user input either parses to a number or raises; the
    argument is therefore an `AmountInput` that is either a number or not.
  * The soft failure strings returned by `add_transaction` are modelled by
    the inductive `TxError`, one constructor per message, carrying the data
    interpolated into the message.
  * `dict.get` with a default on snapshot import is modelled by `Option`
    fields in the raw snapshot records; a record constructor raising on a
    missing required key becomes a partial decoder returning `Option`.
-/

/-- `Transaction` dataclass: sender, recipient, amount, note, timestamp. -/
structure Transaction where
  sender : String
  recipient : String
  amount : ℚ
  note : String
  timestamp : String
deriving DecidableEq, Repr

/-- `Block` dataclass: index, timestamp, transactions, previous_hash,
nonce, hash. -/
structure Block where
  index : Nat
  timestamp : String
  transactions : List Transaction
  previous_hash : String
  nonce : Nat
  hash : String
deriving DecidableEq, Repr

/-- The digest function `_hash_block(index, timestamp, transactions,
previous_hash, nonce)`, kept opaque: JSON serialization followed by
SHA-256 in the source. -/
def HashFn : Type :=
  Nat → String → List Transaction → String → Nat → String

/-- The `Blockchain` aggregate state: chain, pending queue, user registry,
difficulty and reward. -/
structure Blockchain where
  chain : List Block
  pending : List Transaction
  users : Finset String
  difficulty : Nat
  reward : ℚ

/-- `"0" * n`. -/
def zeroString (n : Nat) : String :=
  ⟨List.replicate n '0'⟩

/-- Python `str.strip()`: drop whitespace from both ends, phrased over the
character list. -/
def pyStrip (s : String) : String :=
  ⟨((s.data.dropWhile Char.isWhitespace).reverse.dropWhile
      Char.isWhitespace).reverse⟩

/-- Python `str.upper()`, phrased over the character list. -/
def pyUpper (s : String) : String :=
  ⟨s.data.map Char.toUpper⟩

/-- Python `str.startswith`, phrased over the character lists. -/
def strStartsWith (s pre : String) : Bool :=
  pre.data.isPrefixOf s.data

/-- A block as built by `_new_block` and rehashed at a given nonce: the
stored hash is the digest of the other five fields. -/
def minedBlock (H : HashFn) (idx : Nat) (ts : String)
    (txs : List Transaction) (prev : String) (n : Nat) : Block :=
  ⟨idx, ts, txs, prev, n, H idx ts txs prev n⟩

/-- `Blockchain.__init__(difficulty, reward)` followed by
`_create_genesis`: difficulty clamped by `max(0, int(difficulty))`, a
genesis transaction SYSTEM → GENESIS of amount 0, and a genesis block with
sentinel previous hash of 64 '0' characters at nonce 0. -/
def Blockchain.init (H : HashFn) (difficulty : Int) (reward : ℚ)
    (nowTx nowBlock : String) : Blockchain :=
  let genesisTx : Transaction := ⟨"SYSTEM", "GENESIS", 0, "Genesis", nowTx⟩
  ⟨[minedBlock H 0 nowBlock [genesisTx] (zeroString 64) 0], [], ∅,
    (max 0 difficulty).toNat, reward⟩

/-- `add_user(name)`: trim, reject empty and SYSTEM (case-insensitive) and
duplicates, otherwise insert. Returns the updated state and the Bool
result. -/
def Blockchain.add_user (bc : Blockchain) (name : String) :
    Blockchain × Bool :=
  let name := pyStrip name
  if name = "" ∨ pyUpper name = "SYSTEM" then (bc, false)
  else if name ∈ bc.users then (bc, false)
  else ({ bc with users := insert name bc.users }, true)

/-- `float(amount)` on caller input: either a number or a parse failure. -/
inductive AmountInput where
  | num (q : ℚ)
  | notNum
deriving DecidableEq, Repr

/-- The soft failure values of `add_transaction`, one constructor per
message, carrying the data the message interpolates. -/
inductive TxError where
  | notANumber
  | mustBePositive
  | unknownSender (sender : String)
  | unknownRecipient (recipient : String)
  | insufficientFunds (sender : String) (balance : ℚ)
deriving DecidableEq, Repr

/-- `round(x, 8)`. -/
def round8 (q : ℚ) : ℚ :=
  (round (q * 100000000) : ℤ) / 100000000

/-- `get_balance(name)`: fold over every transaction of every chain block,
subtracting sent and adding received amounts, then subtract pending sent
amounts, and round. -/
def Blockchain.get_balance (bc : Blockchain) (name : String) : ℚ :=
  let confirmed := bc.chain.foldl
    (fun acc blk => blk.transactions.foldl
      (fun acc tx =>
        let acc2 := if tx.sender = name then acc - tx.amount else acc
        if tx.recipient = name then acc2 + tx.amount else acc2)
      acc)
    0
  let withPending := bc.pending.foldl
    (fun acc tx => if tx.sender = name then acc - tx.amount else acc)
    confirmed
  round8 withPending

/-- `add_transaction(sender, recipient, amount, note)`: the validation
ladder of the source, returning the updated state and `none` on success or
the first failing check's error. -/
def Blockchain.add_transaction (bc : Blockchain) (sender recipient : String)
    (amount : AmountInput) (note : String) (now : String) :
    Blockchain × Option TxError :=
  match amount with
  | .notNum => (bc, some .notANumber)
  | .num a =>
    if a ≤ 0 then (bc, some .mustBePositive)
    else if sender ≠ "SYSTEM" ∧ sender ∉ bc.users then
      (bc, some (.unknownSender sender))
    else if recipient ∉ bc.users ∧ recipient ≠ "GENESIS" then
      (bc, some (.unknownRecipient recipient))
    else if sender ≠ "SYSTEM" ∧ bc.get_balance sender < a then
      (bc, some (.insufficientFunds sender (bc.get_balance sender)))
    else
      ({ bc with pending := bc.pending ++ [⟨sender, recipient, a, note, now⟩] },
        none)

/-- The two exceptional exits of `mine`: the `ValueError` for an unknown
miner, and the `IndexError` of `chain[-1]` on an empty chain. -/
inductive MineFailure where
  | unknownMiner
  | emptyChain
deriving DecidableEq, Repr

/-- The proof-of-work `while` loop: test the digest at the current nonce,
increment until the target prefix matches, with explicit fuel bounding the
number of increments. -/
def powSearch (H : HashFn) (idx : Nat) (ts : String)
    (txs : List Transaction) (prev : String) (target : String) :
    Nat → Nat → Option Nat
  | nonce, 0 =>
    if strStartsWith (H idx ts txs prev nonce) target then some nonce
    else none
  | nonce, fuel + 1 =>
    if strStartsWith (H idx ts txs prev nonce) target then some nonce
    else powSearch H idx ts txs prev target (nonce + 1) fuel

/-- `mine(miner)`: reject an unknown miner, append the reward transaction
to a working copy of the pending list, build the candidate block at
`index = len(chain)` on top of `chain[-1]`, run the nonce search against
`"0" * difficulty`, and on success commit the block and clear the queue.
The first component is the ledger state after the call; on an error or an
unfinished search the state is unchanged. -/
def Blockchain.mine (bc : Blockchain) (H : HashFn) (miner : String)
    (nowTx nowBlock : String) (fuel : Nat) :
    Blockchain × Except MineFailure (Option Block) :=
  if miner ∈ bc.users then
    let txs := bc.pending ++ [⟨"SYSTEM", miner, bc.reward, "Mining reward", nowTx⟩]
    match bc.chain.getLast? with
    | none => (bc, .error .emptyChain)
    | some last =>
      match powSearch H bc.chain.length nowBlock txs last.hash
          (zeroString bc.difficulty) 0 fuel with
      | none => (bc, .ok none)
      | some n =>
        let b := minedBlock H bc.chain.length nowBlock txs last.hash n
        ({ bc with chain := bc.chain ++ [b], pending := [] }, .ok (some b))
  else (bc, .error .unknownMiner)

/-- A raw transaction record as read from a snapshot: `Transaction(**d)`
raises on a missing `sender`, `recipient` or `amount`, while `note` and
`timestamp` have dataclass defaults. -/
structure TxDict where
  sender : Option String
  recipient : Option String
  amount : Option ℚ
  note : Option String
  timestamp : Option String
deriving DecidableEq, Repr

/-- A raw block record as read from a snapshot: `Block.from_dict` indexes
all six keys, raising on any missing one. -/
structure BlockDict where
  index : Option Nat
  timestamp : Option String
  transactions : Option (List TxDict)
  previous_hash : Option String
  nonce : Option Nat
  hash : Option String
deriving DecidableEq, Repr

/-- The exported/persisted snapshot object; every top-level key is read
back with `dict.get`, hence optional. -/
structure SnapshotDict where
  difficulty : Option Int
  reward : Option ℚ
  users : Option (List String)
  pending : Option (List TxDict)
  chain : Option (List BlockDict)
deriving DecidableEq, Repr

/-- A list comprehension whose element decoder may raise: the whole
construction produces a value only when every element does. -/
def mapOpt (f : α → Option β) : List α → Option (List β)
  | [] => some []
  | a :: as =>
    match f a, mapOpt f as with
    | some b, some bs => some (b :: bs)
    | _, _ => none

/-- `Transaction.to_dict` / `asdict`. -/
def Transaction.to_dict (t : Transaction) : TxDict :=
  ⟨some t.sender, some t.recipient, some t.amount, some t.note,
    some t.timestamp⟩

/-- `Transaction.from_dict`: `Transaction(**d)`, failing on a missing
required field and defaulting `note` and `timestamp` to the empty
string. -/
def Transaction.from_dict (d : TxDict) : Option Transaction :=
  match d.sender, d.recipient, d.amount with
  | some s, some r, some a =>
    some ⟨s, r, a, d.note.getD "", d.timestamp.getD ""⟩
  | _, _, _ => none

/-- `Block.to_dict`. -/
def Block.to_dict (b : Block) : BlockDict :=
  ⟨some b.index, some b.timestamp, some (b.transactions.map Transaction.to_dict),
    some b.previous_hash, some b.nonce, some b.hash⟩

/-- `Block.from_dict`: all six keys are required, and every transaction
record must decode. -/
def Block.from_dict (d : BlockDict) : Option Block :=
  match d.index, d.timestamp, d.transactions, d.previous_hash, d.nonce, d.hash with
  | some i, some ts, some txs, some ph, some n, some h =>
    (mapOpt Transaction.from_dict txs).map fun l => ⟨i, ts, l, ph, n, h⟩
  | _, _, _, _, _, _ => none

/-- `Blockchain.to_dict`: difficulty, reward, sorted users, pending and
chain, every record exported in full. -/
def Blockchain.to_dict (bc : Blockchain) : SnapshotDict :=
  ⟨some (bc.difficulty : Int), some bc.reward,
    some (bc.users.sort (· ≤ ·)),
    some (bc.pending.map Transaction.to_dict),
    some (bc.chain.map Block.to_dict)⟩

/-- `Blockchain.from_dict`: construct a fresh ledger from the snapshot
difficulty and reward (defaults 2 and 10.0 when absent), then replace
users, pending and chain wholesale, each top-level collection defaulting
to empty when absent; any record that fails to decode aborts the whole
operation with no ledger produced. -/
def Blockchain.from_dict (H : HashFn) (nowTx nowBlock : String)
    (d : SnapshotDict) : Option Blockchain :=
  let bc := Blockchain.init H (d.difficulty.getD 2) (d.reward.getD 10)
    nowTx nowBlock
  match mapOpt Transaction.from_dict (d.pending.getD []),
      mapOpt Block.from_dict (d.chain.getD []) with
  | some pending, some chain =>
    some { bc with
      users := (d.users.getD []).toFinset
      pending := pending
      chain := chain }
  | _, _ => none

/-- The shell's `do_load`: the caller's ledger reference is replaced only
when the import produces a ledger; a failed import leaves the prior state
in place. -/
def loadState (H : HashFn) (nowTx nowBlock : String) (bc : Blockchain)
    (d : SnapshotDict) : Blockchain :=
  match Blockchain.from_dict H nowTx nowBlock d with
  | some bc2 => bc2
  | none => bc

/-- The ledger states reachable from a fresh `Blockchain` by the public
mutating operations. -/
inductive Reachable (H : HashFn) : Blockchain → Prop
  | init (difficulty : Int) (reward : ℚ) (nowTx nowBlock : String) :
      Reachable H (Blockchain.init H difficulty reward nowTx nowBlock)
  | add_user (bc : Blockchain) (name : String) :
      Reachable H bc → Reachable H (bc.add_user name).1
  | add_transaction (bc : Blockchain) (s r : String) (a : AmountInput)
      (note now : String) :
      Reachable H bc → Reachable H (bc.add_transaction s r a note now).1
  | mine (bc : Blockchain) (miner nowTx nowBlock : String) (fuel : Nat) :
      Reachable H bc → Reachable H (bc.mine H miner nowTx nowBlock fuel).1

/-- The per-transaction contribution of one committed transaction to the
balance of `name`, as the specification words it: add the amount when
`name` receives, subtract it when `name` sends. -/
def txSignedAmount (name : String) (t : Transaction) : ℚ :=
  (if t.recipient = name then t.amount else 0)
    - (if t.sender = name then t.amount else 0)

/-- The specification's balance: the sum of the signed amounts of every
committed transaction, minus the amounts of the pending transactions sent
by `name`, before rounding. -/
def specBalance (bc : Blockchain) (name : String) : ℚ :=
  (bc.chain.map fun b => (b.transactions.map (txSignedAmount name)).sum).sum
    - (bc.pending.map fun t => if t.sender = name then t.amount else 0).sum

/-- Whether `name` occurs as sender or recipient of any committed
transaction, or as sender of any pending one: the transactions that
`get_balance` can react to. -/
def Blockchain.mentionsName (bc : Blockchain) (name : String) : Bool :=
  (bc.chain.any fun b =>
      b.transactions.any fun t => t.sender == name || t.recipient == name)
    || bc.pending.any fun t => t.sender == name

/-- The admission ladder as the specification words it: amount parses,
amount strictly positive, sender SYSTEM or registered, recipient
registered or GENESIS, and for a non-SYSTEM sender a balance of at least
the amount; the first violated condition names the failure. -/
def specAdmission (bc : Blockchain) (s r : String) (a : AmountInput) :
    Option TxError :=
  match a with
  | .notNum => some .notANumber
  | .num q =>
    if ¬ 0 < q then some .mustBePositive
    else if ¬ (s = "SYSTEM" ∨ s ∈ bc.users) then some (.unknownSender s)
    else if ¬ (r ∈ bc.users ∨ r = "GENESIS") then some (.unknownRecipient r)
    else if ¬ (s = "SYSTEM" ∨ q ≤ bc.get_balance s) then
      some (.insufficientFunds s (bc.get_balance s))
    else none

/-- A fixed digest function used to exercise the theorems on concrete
ledgers: every digest is the 64-character zero string, so any small
difficulty target is met at once. -/
def constHash : HashFn := fun _ _ _ _ _ => zeroString 64

/-- A concrete ledger: fresh state at difficulty 2 and reward 10, with the
single registered user alice. -/
def bcW : Blockchain :=
  ((Blockchain.init constHash 2 10 "t1" "t2").add_user "alice").1

/-- The block that mining `bcW` with `constHash` commits. -/
def blkW : Block :=
  ⟨1, "t4", [⟨"SYSTEM", "alice", 10, "Mining reward", "t3"⟩],
    zeroString 64, 0, zeroString 64⟩

/-- A concrete difficulty-0 ledger with the single registered user bob. -/
def bcZ : Blockchain :=
  ((Blockchain.init constHash 0 10 "t1" "t2").add_user "bob").1

/-- The block that mining `bcZ` with `constHash` commits. -/
def blkZ : Block :=
  ⟨1, "t4", [⟨"SYSTEM", "bob", 10, "Mining reward", "t3"⟩],
    zeroString 64, 0, zeroString 64⟩

theorem powSearch_some {H : HashFn} {idx : Nat} {ts : String}
    {txs : List Transaction} {prev target : String} :
    ∀ {fuel nonce n : Nat},
      powSearch H idx ts txs prev target nonce fuel = some n →
      strStartsWith (H idx ts txs prev n) target = true := by
  intro fuel
  induction fuel with
  | zero =>
    intro nonce n h
    unfold powSearch at h
    split at h
    · cases h; assumption
    · cases h
  | succ fuel ih =>
    intro nonce n h
    unfold powSearch at h
    split at h
    · cases h; assumption
    · exact ih h

theorem powSearch_hit {H : HashFn} {idx : Nat} {ts : String}
    {txs : List Transaction} {prev target : String} {nonce : Nat}
    (h : strStartsWith (H idx ts txs prev nonce) target = true)
    (fuel : Nat) :
    powSearch H idx ts txs prev target nonce fuel = some nonce := by
  cases fuel <;> simp [powSearch, h]

theorem strStartsWith_zeroString_zero (s : String) :
    strStartsWith s (zeroString 0) = true := by
  simp [strStartsWith, zeroString, List.isPrefixOf]

/-- Evaluating `mine` once the branch conditions are known: registered
miner, last chain block, successful nonce search. -/
theorem mine_eq_of_conds {H : HashFn} {bc : Blockchain}
    {miner nowTx nowBlock : String} {fuel : Nat} {last : Block} {n : Nat}
    (hmem : miner ∈ bc.users)
    (hlast : bc.chain.getLast? = some last)
    (hpow : powSearch H bc.chain.length nowBlock
      (bc.pending ++ [⟨"SYSTEM", miner, bc.reward, "Mining reward", nowTx⟩])
      last.hash (zeroString bc.difficulty) 0 fuel = some n) :
    bc.mine H miner nowTx nowBlock fuel =
      ({ bc with
          chain := bc.chain ++ [minedBlock H bc.chain.length nowBlock
            (bc.pending ++
              [⟨"SYSTEM", miner, bc.reward, "Mining reward", nowTx⟩])
            last.hash n],
          pending := [] },
        .ok (some (minedBlock H bc.chain.length nowBlock
          (bc.pending ++ [⟨"SYSTEM", miner, bc.reward, "Mining reward", nowTx⟩])
          last.hash n))) := by
  unfold Blockchain.mine
  simp only [if_pos hmem, hlast, hpow]

/-- Anatomy of a successful `mine` call: the miner is registered, the
chain has a last block, the nonce search succeeded, the returned block is
the mined candidate built over the pending queue plus the reward
transaction, and the new state commits that block and clears the queue. -/
theorem mine_success_shape {H : HashFn} {bc : Blockchain}
    {miner nowTx nowBlock : String} {fuel : Nat} {b : Block}
    (h : (bc.mine H miner nowTx nowBlock fuel).2 = .ok (some b)) :
    ∃ last n,
      miner ∈ bc.users ∧
      bc.chain.getLast? = some last ∧
      powSearch H bc.chain.length nowBlock
        (bc.pending ++ [⟨"SYSTEM", miner, bc.reward, "Mining reward", nowTx⟩])
        last.hash (zeroString bc.difficulty) 0 fuel = some n ∧
      b = minedBlock H bc.chain.length nowBlock
        (bc.pending ++ [⟨"SYSTEM", miner, bc.reward, "Mining reward", nowTx⟩])
        last.hash n ∧
      bc.mine H miner nowTx nowBlock fuel =
        ({ bc with chain := bc.chain ++ [b], pending := [] }, .ok (some b)) := by
  unfold Blockchain.mine at h
  split at h
  case isTrue hmem =>
    split at h
    case h_1 => cases h
    case h_2 last hlast =>
      dsimp only at h
      split at h
      case h_1 => cases h
      case h_2 n hpow =>
        simp only at h
        cases h
        exact ⟨last, n, hmem, hlast, hpow, rfl,
          mine_eq_of_conds hmem hlast hpow⟩
  case isFalse hmem => cases h

/-- Claim C1: a successful `mine(miner)` returns a block whose transaction
list is the pending queue in its original order followed by the single
reward transaction (SYSTEM → miner, amount `reward`, note Mining reward),
so N pending transactions give N + 1 block transactions; the new state
appends exactly that block to the chain and leaves the pending queue
empty. -/
theorem mine_commits_all_pending_plus_reward
    (H : HashFn) (bc : Blockchain) (miner nowTx nowBlock : String)
    (fuel : Nat) (b : Block)
    (h : (bc.mine H miner nowTx nowBlock fuel).2 = .ok (some b)) :
    b.transactions =
      bc.pending ++ [⟨"SYSTEM", miner, bc.reward, "Mining reward", nowTx⟩] ∧
    b.transactions.length = bc.pending.length + 1 ∧
    (bc.mine H miner nowTx nowBlock fuel).1.chain = bc.chain ++ [b] ∧
    (bc.mine H miner nowTx nowBlock fuel).1.pending = [] := by
  obtain ⟨last, n, hmem, hlast, hpow, hb, heq⟩ := mine_success_shape h
  subst hb
  refine ⟨rfl, by simp [minedBlock], ?_, ?_⟩
  · rw [heq]
  · rw [heq]

/-- Witness for C1: mining the one-user ledger `bcW` commits `blkW`,
holding its zero pending transactions plus the reward. -/
theorem mine_commits_all_pending_plus_reward_witness :
    (bcW.mine constHash "alice" "t3" "t4" 5).2 = .ok (some blkW) ∧
    (blkW.transactions =
      bcW.pending ++ [⟨"SYSTEM", "alice", bcW.reward, "Mining reward", "t3"⟩] ∧
    blkW.transactions.length = bcW.pending.length + 1 ∧
    (bcW.mine constHash "alice" "t3" "t4" 5).1.chain = bcW.chain ++ [blkW] ∧
    (bcW.mine constHash "alice" "t3" "t4" 5).1.pending = []) :=
  ⟨rfl,
    mine_commits_all_pending_plus_reward constHash bcW "alice" "t3" "t4" 5
      blkW rfl⟩

/-- Claim C2: the digest recomputed from a mined block's stored fields is
exactly its stored hash, that hash meets the zero-prefix difficulty
target, and at difficulty 0 the very first attempt is accepted with the
nonce left at 0. -/
theorem mine_block_hash_meets_target
    (H : HashFn) (bc : Blockchain) (miner nowTx nowBlock : String)
    (fuel : Nat) (b : Block)
    (h : (bc.mine H miner nowTx nowBlock fuel).2 = .ok (some b)) :
    H b.index b.timestamp b.transactions b.previous_hash b.nonce = b.hash ∧
    strStartsWith b.hash (zeroString bc.difficulty) = true ∧
    (bc.difficulty = 0 → b.nonce = 0) := by
  obtain ⟨last, n, hmem, hlast, hpow, hb, heq⟩ := mine_success_shape h
  subst hb
  refine ⟨rfl, powSearch_some hpow, ?_⟩
  intro hd
  rw [hd] at hpow
  have h0 : powSearch H bc.chain.length nowBlock
      (bc.pending ++ [⟨"SYSTEM", miner, bc.reward, "Mining reward", nowTx⟩])
      last.hash (zeroString 0) 0 fuel = some 0 :=
    powSearch_hit (strStartsWith_zeroString_zero _) fuel
  rw [hpow] at h0
  show n = 0
  exact (Option.some.injEq ..).mp h0

/-- Witness for C2: mining a difficulty-0 ledger with zero fuel succeeds
on the first attempt with nonce 0 and a recomputable hash. -/
theorem mine_block_hash_meets_target_witness :
    (bcZ.mine constHash "bob" "t3" "t4" 0).2 = .ok (some blkZ) ∧
    (constHash blkZ.index blkZ.timestamp blkZ.transactions blkZ.previous_hash
        blkZ.nonce = blkZ.hash ∧
    strStartsWith blkZ.hash (zeroString bcZ.difficulty) = true ∧
    (bcZ.difficulty = 0 → blkZ.nonce = 0)) :=
  ⟨rfl,
    mine_block_hash_meets_target constHash bcZ "bob" "t3" "t4" 0 blkZ rfl⟩

/-- Claim C6: mining with an unregistered miner signals the fatal
`ValueError` and returns the ledger state exactly as it was. -/
theorem mine_unknown_miner_rejected
    (H : HashFn) (bc : Blockchain) (miner nowTx nowBlock : String)
    (fuel : Nat) (h : miner ∉ bc.users) :
    bc.mine H miner nowTx nowBlock fuel = (bc, .error .unknownMiner) := by
  unfold Blockchain.mine
  rw [if_neg h]

/-- Witness for C6: carol is not registered in `bcW`, and mining as carol
fails fatally leaving the state untouched. -/
theorem mine_unknown_miner_rejected_witness :
    "carol" ∉ bcW.users ∧
    bcW.mine constHash "carol" "t5" "t6" 3 = (bcW, .error .unknownMiner) :=
  ⟨by decide,
    mine_unknown_miner_rejected constHash bcW "carol" "t5" "t6" 3 (by decide)⟩

theorem specAdmission_none_iff (bc : Blockchain) (s r : String)
    (a : AmountInput) :
    specAdmission bc s r a = none ↔
      ∃ q, a = .num q ∧ 0 < q ∧ (s = "SYSTEM" ∨ s ∈ bc.users) ∧
        (r ∈ bc.users ∨ r = "GENESIS") ∧
        (s ≠ "SYSTEM" → q ≤ bc.get_balance s) := by
  cases a with
  | notNum => simp [specAdmission]
  | num q =>
    unfold specAdmission
    dsimp only
    constructor
    · intro h
      split_ifs at h with h1 h2 h3 h4
      exact ⟨q, rfl, h1, h2, h3, fun hs => h4.resolve_left hs⟩
    · rintro ⟨q', hq, hpos, hsnd, hrcp, hbal⟩
      injection hq with hqq
      subst hqq
      have h4 : s = "SYSTEM" ∨ q ≤ bc.get_balance s := by
        rcases eq_or_ne s "SYSTEM" with hs | hs
        · exact Or.inl hs
        · exact Or.inr (hbal hs)
      rw [if_neg (not_not_intro hpos), if_neg (not_not_intro hsnd),
        if_neg (not_not_intro hrcp), if_neg (not_not_intro h4)]

/-- Claim C4: `add_transaction` returns exactly the failure value of the
first violated condition of the specification ladder (not a number, must
be positive, unknown sender, unknown recipient, insufficient funds, in
that order), and succeeds exactly when the amount is a positive number,
the sender is SYSTEM or registered, the recipient is registered or
GENESIS, and a non-SYSTEM sender holds a balance of at least the
amount. -/
theorem add_transaction_admission_spec
    (bc : Blockchain) (s r : String) (a : AmountInput) (note now : String) :
    (bc.add_transaction s r a note now).2 = specAdmission bc s r a ∧
    ((bc.add_transaction s r a note now).2 = none ↔
      ∃ q, a = .num q ∧ 0 < q ∧ (s = "SYSTEM" ∨ s ∈ bc.users) ∧
        (r ∈ bc.users ∨ r = "GENESIS") ∧
        (s ≠ "SYSTEM" → q ≤ bc.get_balance s)) := by
  have heq : (bc.add_transaction s r a note now).2 = specAdmission bc s r a := by
    cases a with
    | notNum => rfl
    | num q =>
      unfold Blockchain.add_transaction specAdmission
      simp only [not_lt, not_or, not_le]
      split_ifs <;> rfl
  exact ⟨heq, heq ▸ specAdmission_none_iff bc s r a⟩

/-- Claim C5: `add_transaction` never touches the chain, the user
registry, the difficulty or the reward; a failing call returns the state
exactly as given, and a succeeding call changes it only by appending the
one new transaction to the pending queue. -/
theorem add_transaction_frame
    (bc : Blockchain) (s r : String) (a : AmountInput) (note now : String) :
    (bc.add_transaction s r a note now).1.chain = bc.chain ∧
    (bc.add_transaction s r a note now).1.users = bc.users ∧
    (bc.add_transaction s r a note now).1.difficulty = bc.difficulty ∧
    (bc.add_transaction s r a note now).1.reward = bc.reward ∧
    ((bc.add_transaction s r a note now).2 ≠ none →
      (bc.add_transaction s r a note now).1 = bc) ∧
    ((bc.add_transaction s r a note now).2 = none →
      ∃ q, a = .num q ∧
        (bc.add_transaction s r a note now).1 =
          { bc with pending := bc.pending ++ [⟨s, r, q, note, now⟩] }) := by
  cases a with
  | notNum =>
    exact ⟨rfl, rfl, rfl, rfl, fun _ => rfl,
      fun h => by simp [Blockchain.add_transaction] at h⟩
  | num q =>
    unfold Blockchain.add_transaction
    dsimp only
    split_ifs with h1 h2 h3 h4
    · exact ⟨rfl, rfl, rfl, rfl, fun _ => rfl, fun h => by simp at h⟩
    · exact ⟨rfl, rfl, rfl, rfl, fun _ => rfl, fun h => by simp at h⟩
    · exact ⟨rfl, rfl, rfl, rfl, fun _ => rfl, fun h => by simp at h⟩
    · exact ⟨rfl, rfl, rfl, rfl, fun _ => rfl, fun h => by simp at h⟩
    · exact ⟨rfl, rfl, rfl, rfl, fun h => absurd rfl h,
        fun _ => ⟨q, rfl, rfl⟩⟩

/-- Witness for C5: the unknown sender zed makes admission fail on `bcW`
and the state comes back exactly as it was. -/
theorem add_transaction_frame_witness :
    (bcW.add_transaction "zed" "alice" (.num 5) "" "t5").2 ≠ none ∧
    (bcW.add_transaction "zed" "alice" (.num 5) "" "t5").1 = bcW :=
  ⟨by decide,
    (add_transaction_frame bcW "zed" "alice" (.num 5) "" "t5").2.2.2.2.1
      (by decide)⟩

/-- Claim C10: registration reserves only the empty name and SYSTEM
(compared case-insensitively after trimming): any other unregistered
trimmed name, GENESIS included, is accepted and added to the
registry. -/
theorem add_user_reserves_only_system
    (bc : Blockchain) (name : String)
    (h1 : pyStrip name ≠ "")
    (h2 : pyUpper (pyStrip name) ≠ "SYSTEM")
    (h3 : pyStrip name ∉ bc.users) :
    (bc.add_user name).2 = true ∧
    (bc.add_user name).1.users = insert (pyStrip name) bc.users := by
  unfold Blockchain.add_user
  dsimp only
  rw [if_neg (by simp [h1, h2]), if_neg h3]
  exact ⟨rfl, rfl⟩

/-- Witness for C10: GENESIS is not registered in `bcW`, and registering
it succeeds even though it is the genesis sentinel recipient. -/
theorem add_user_reserves_only_system_witness :
    pyStrip "GENESIS" ≠ "" ∧ pyUpper (pyStrip "GENESIS") ≠ "SYSTEM" ∧
    pyStrip "GENESIS" ∉ bcW.users ∧
    (bcW.add_user "GENESIS").2 = true ∧
    (bcW.add_user "GENESIS").1.users = insert (pyStrip "GENESIS") bcW.users :=
  ⟨by decide, by decide, by decide,
    (add_user_reserves_only_system bcW "GENESIS" (by decide) (by decide)
      (by decide)).1,
    (add_user_reserves_only_system bcW "GENESIS" (by decide) (by decide)
      (by decide)).2⟩

/-- Witness for C4: the admission outcome at a concrete SYSTEM faucet
matches the specification ladder. -/
theorem add_transaction_admission_spec_witness :
    (bcW.add_transaction "SYSTEM" "alice" (.num 5) "x" "t5").2 =
      specAdmission bcW "SYSTEM" "alice" (.num 5) :=
  (add_transaction_admission_spec bcW "SYSTEM" "alice" (.num 5) "x" "t5").1

theorem foldl_tx_step (name : String) (l : List Transaction) (a : ℚ) :
    l.foldl (fun acc tx =>
      let acc2 := if tx.sender = name then acc - tx.amount else acc
      if tx.recipient = name then acc2 + tx.amount else acc2) a
      = a + (l.map (txSignedAmount name)).sum := by
  induction l generalizing a with
  | nil => simp
  | cons t ts ih =>
    rw [List.foldl_cons, ih, List.map_cons, List.sum_cons]
    unfold txSignedAmount
    dsimp only
    split_ifs <;> ring

theorem foldl_chain_step (name : String) (l : List Block) (a : ℚ) :
    l.foldl (fun acc blk => blk.transactions.foldl
      (fun acc tx =>
        let acc2 := if tx.sender = name then acc - tx.amount else acc
        if tx.recipient = name then acc2 + tx.amount else acc2)
      acc) a
      = a + (l.map fun b => (b.transactions.map (txSignedAmount name)).sum).sum := by
  induction l generalizing a with
  | nil => simp
  | cons b bs ih =>
    rw [List.foldl_cons, ih, foldl_tx_step, List.map_cons, List.sum_cons]
    ring

theorem foldl_pending_step (name : String) (l : List Transaction) (a : ℚ) :
    l.foldl (fun acc tx => if tx.sender = name then acc - tx.amount else acc) a
      = a - (l.map fun t => if t.sender = name then t.amount else 0).sum := by
  induction l generalizing a with
  | nil => simp
  | cons t ts ih =>
    rw [List.foldl_cons, ih, List.map_cons, List.sum_cons]
    split_ifs <;> ring

theorem specBalance_eq_zero_of_not_mentions (bc : Blockchain) (name : String)
    (h : bc.mentionsName name = false) : specBalance bc name = 0 := by
  unfold Blockchain.mentionsName at h
  simp only [Bool.or_eq_false_iff, List.any_eq_false, Bool.not_eq_true,
    beq_eq_false_iff_ne, ne_eq] at h
  obtain ⟨hchain, hpend⟩ := h
  unfold specBalance
  have hc : (bc.chain.map fun b =>
      (b.transactions.map (txSignedAmount name)).sum).sum = 0 := by
    apply List.sum_eq_zero
    intro x hx
    simp only [List.mem_map] at hx
    obtain ⟨b, hb, rfl⟩ := hx
    apply List.sum_eq_zero
    intro y hy
    simp only [List.mem_map] at hy
    obtain ⟨t, ht, rfl⟩ := hy
    obtain ⟨hs, hr⟩ := hchain b hb t ht
    simp [txSignedAmount, hs, hr]
  have hp : (bc.pending.map fun t =>
      if t.sender = name then t.amount else 0).sum = 0 := by
    apply List.sum_eq_zero
    intro x hx
    simp only [List.mem_map] at hx
    obtain ⟨t, ht, rfl⟩ := hx
    simp [hpend t ht]
  rw [hc, hp, sub_zero]

/-- Claim C3: `get_balance(name)` is exactly the rounded replay value —
credits minus debits over every committed transaction, minus pending
debits — for any name, registered or not, with no error condition; a name
that no transaction mentions has balance zero. -/
theorem get_balance_replay_spec (bc : Blockchain) (name : String) :
    bc.get_balance name = round8 (specBalance bc name) ∧
    (bc.mentionsName name = false → bc.get_balance name = 0) := by
  have hmain : bc.get_balance name = round8 (specBalance bc name) := by
    unfold Blockchain.get_balance specBalance
    dsimp only
    rw [foldl_pending_step, foldl_chain_step]
    congr 1
    ring
  refine ⟨hmain, fun hnm => ?_⟩
  rw [hmain, specBalance_eq_zero_of_not_mentions bc name hnm]
  simp [round8]

/-- Witness for C3: no transaction of `bcW` mentions the unknown name
nobody, and its balance is zero. -/
theorem get_balance_replay_spec_witness :
    bcW.mentionsName "nobody" = false ∧ bcW.get_balance "nobody" = 0 :=
  ⟨by decide, (get_balance_replay_spec bcW "nobody").2 (by decide)⟩

theorem transaction_roundtrip (t : Transaction) :
    Transaction.from_dict (Transaction.to_dict t) = some t := rfl

theorem mapOpt_roundtrip {α β : Type} {f : β → Option α} {g : α → β}
    (hfg : ∀ a, f (g a) = some a) :
    ∀ l : List α, mapOpt f (l.map g) = some l
  | [] => rfl
  | a :: as => by
    rw [List.map_cons]
    unfold mapOpt
    rw [hfg, mapOpt_roundtrip hfg as]

theorem block_roundtrip (b : Block) :
    Block.from_dict (Block.to_dict b) = some b := by
  obtain ⟨i, ts, txs, ph, n, h⟩ := b
  unfold Block.to_dict Block.from_dict
  dsimp only
  rw [mapOpt_roundtrip transaction_roundtrip]
  rfl

/-- Claim C7: importing the export of any ledger reproduces it exactly —
same chain blocks and hashes in order, same user set, same pending queue,
same difficulty and reward. -/
theorem export_import_roundtrip (H : HashFn) (nowTx nowBlock : String)
    (bc : Blockchain) :
    Blockchain.from_dict H nowTx nowBlock bc.to_dict = some bc := by
  obtain ⟨chain, pending, users, difficulty, reward⟩ := bc
  unfold Blockchain.to_dict Blockchain.from_dict
  dsimp only
  simp only [Option.getD_some]
  rw [mapOpt_roundtrip transaction_roundtrip,
    mapOpt_roundtrip block_roundtrip]
  simp only [Option.some.injEq]
  unfold Blockchain.init
  simp only [Blockchain.mk.injEq, Finset.sort_toFinset, Option.getD_some,
    true_and, and_true, eq_self_iff_true]
  omega

/-- A snapshot missing the users, pending and chain fields entirely. -/
def snapMissing : SnapshotDict := ⟨some 2, some 10, none, none, none⟩

/-- A snapshot whose pending list holds a transaction record missing all
its required fields. -/
def snapBad : SnapshotDict :=
  ⟨some 2, some 10, some [], some [⟨none, none, none, none, none⟩], none⟩

/-- Counterexample to C8 as stated: importing a snapshot that lacks the
users, pending and chain fields does not fail — it produces a ledger. -/
theorem import_missing_toplevel_fields_succeeds :
    (Blockchain.from_dict constHash "t1" "t2" snapMissing).isSome = true :=
  rfl

/-- Claim C8 (amended): a snapshot missing the top-level users, pending
and chain fields imports successfully, with those parts defaulted to
empty; import fails only when a present record is malformed (for example
a transaction record missing required fields), and a failed import leaves
the caller's prior ledger in place, unchanged and usable. -/
theorem import_defaults_missing_and_fails_cleanly (H : HashFn)
    (n1 n2 : String) (d : SnapshotDict) (bc : Blockchain) :
    (d.users = none → d.pending = none → d.chain = none →
      ∃ bc2, Blockchain.from_dict H n1 n2 d = some bc2 ∧
        bc2.users = ∅ ∧ bc2.pending = [] ∧ bc2.chain = []) ∧
    (Blockchain.from_dict H n1 n2 d = none → loadState H n1 n2 bc d = bc) := by
  constructor
  · intro hu hp hc
    unfold Blockchain.from_dict
    rw [hu, hp, hc]
    exact ⟨_, rfl, rfl, rfl, rfl⟩
  · intro hfail
    unfold loadState
    rw [hfail]

/-- Witness for the amended C8: the field-free snapshot imports to an
empty-parts ledger, and the malformed-record snapshot fails without
touching the prior ledger `bcW`. -/
theorem import_defaults_missing_and_fails_cleanly_witness :
    (∃ bc2, Blockchain.from_dict constHash "t1" "t2" snapMissing = some bc2 ∧
      bc2.users = ∅ ∧ bc2.pending = [] ∧ bc2.chain = []) ∧
    (Blockchain.from_dict constHash "t1" "t2" snapBad = none ∧
      loadState constHash "t1" "t2" bcW snapBad = bcW) :=
  ⟨(import_defaults_missing_and_fails_cleanly constHash "t1" "t2" snapMissing
      bcW).1 rfl rfl rfl,
    rfl,
    (import_defaults_missing_and_fails_cleanly constHash "t1" "t2" snapBad
      bcW).2 rfl⟩

/-- Each block of the list carries the consecutive index starting at `n`. -/
def indexedFrom : Nat → List Block → Prop
  | _, [] => True
  | n, b :: bs => b.index = n ∧ indexedFrom (n + 1) bs

/-- Every block of the list names the hash of the block before it, the
head linking to `p`. -/
def linkedAfter : Block → List Block → Prop
  | _, [] => True
  | p, b :: bs => b.previous_hash = p.hash ∧ linkedAfter b bs

/-- The last block of the list, or `p` when the list is empty. -/
def lastD : Block → List Block → Block
  | p, [] => p
  | _, b :: bs => lastD b bs

/-- The genesis shape: index 0, the 64-zero sentinel previous hash, and a
single SYSTEM → GENESIS transaction of amount 0. -/
def isGenesisBlock (b : Block) : Prop :=
  b.index = 0 ∧ b.previous_hash = zeroString 64 ∧
  ∃ ts, b.transactions = [⟨"SYSTEM", "GENESIS", 0, "Genesis", ts⟩]

/-- The chain invariant of claim C9: nonempty chain headed by a genesis
block, positional indices, and hash linkage between consecutive blocks. -/
def chainInvariant (bc : Blockchain) : Prop :=
  (∃ g rest, bc.chain = g :: rest ∧ isGenesisBlock g) ∧
  indexedFrom 0 bc.chain ∧
  (∀ g rest, bc.chain = g :: rest → linkedAfter g rest)

theorem indexedFrom_append {l : List Block} {x : Block} :
    ∀ {n : Nat}, indexedFrom n l → x.index = n + l.length →
      indexedFrom n (l ++ [x]) := by
  induction l with
  | nil => intro n _ hx; exact ⟨by simpa using hx, trivial⟩
  | cons b bs ih =>
    intro n hl hx
    obtain ⟨hb, hbs⟩ := hl
    exact ⟨hb, ih hbs (by simp at hx ⊢; omega)⟩

theorem linkedAfter_append {x : Block} :
    ∀ {p : Block} {l : List Block}, linkedAfter p l →
      x.previous_hash = (lastD p l).hash → linkedAfter p (l ++ [x]) := by
  intro p l
  induction l generalizing p with
  | nil => intro _ hx; exact ⟨hx, trivial⟩
  | cons b bs ih =>
    intro hl hx
    obtain ⟨hb, hbs⟩ := hl
    exact ⟨hb, ih hbs hx⟩

theorem getLast?_eq_lastD :
    ∀ (g : Block) (rest : List Block),
      (g :: rest).getLast? = some (lastD g rest) := by
  intro g rest
  induction rest generalizing g with
  | nil => rfl
  | cons b bs ih => rw [List.getLast?_cons_cons, ih]; rfl

theorem add_user_chain (bc : Blockchain) (name : String) :
    (bc.add_user name).1.chain = bc.chain := by
  unfold Blockchain.add_user
  dsimp only
  split_ifs <;> rfl

theorem add_transaction_chain (bc : Blockchain) (s r : String)
    (a : AmountInput) (note now : String) :
    (bc.add_transaction s r a note now).1.chain = bc.chain := by
  unfold Blockchain.add_transaction
  cases a with
  | notNum => rfl
  | num q => dsimp only; split_ifs <;> rfl

/-- The state after `mine` is either unchanged, or extends the chain by
one block indexed at the old length and linked to the old last block. -/
theorem mine_state_cases (H : HashFn) (bc : Blockchain)
    (miner nowTx nowBlock : String) (fuel : Nat) :
    (bc.mine H miner nowTx nowBlock fuel).1 = bc ∨
    ∃ last b, bc.chain.getLast? = some last ∧
      b.index = bc.chain.length ∧ b.previous_hash = last.hash ∧
      (bc.mine H miner nowTx nowBlock fuel).1 =
        { bc with chain := bc.chain ++ [b], pending := [] } := by
  unfold Blockchain.mine
  split
  · dsimp only
    split
    · exact Or.inl rfl
    next last hlast =>
      split
      · exact Or.inl rfl
      next n hpow =>
        exact Or.inr ⟨last, _, hlast, rfl, rfl, rfl⟩
  · exact Or.inl rfl

/-- Claim C9: in every state reachable from a fresh ledger through
`add_user`, `add_transaction` and `mine`, the chain is nonempty, starts
with the genesis block, indexes blocks by position, and links every block
to the hash of its predecessor. -/
theorem reachable_chain_invariant (H : HashFn) (bc : Blockchain)
    (h : Reachable H bc) : chainInvariant bc := by
  induction h with
  | init difficulty reward nowTx nowBlock =>
    refine ⟨⟨_, [], rfl, rfl, rfl, ⟨nowTx, rfl⟩⟩, ⟨rfl, trivial⟩, ?_⟩
    intro g rest hch
    injection hch with h1 h2
    rw [← h2]
    trivial
  | add_user bc name _ ih =>
    obtain ⟨⟨g, rest, hch, hgen⟩, hidx, hlink⟩ := ih
    rw [chainInvariant, add_user_chain]
    exact ⟨⟨g, rest, hch, hgen⟩, hidx, hlink⟩
  | add_transaction bc s r a note now _ ih =>
    obtain ⟨⟨g, rest, hch, hgen⟩, hidx, hlink⟩ := ih
    rw [chainInvariant, add_transaction_chain]
    exact ⟨⟨g, rest, hch, hgen⟩, hidx, hlink⟩
  | mine bc miner nowTx nowBlock fuel _ ih =>
    rcases mine_state_cases H bc miner nowTx nowBlock fuel with
      heq | ⟨last, b, hlast, hbidx, hbprev, heq⟩
    · rw [heq]; exact ih
    · rw [heq]
      obtain ⟨⟨g, rest, hch, hgen⟩, hidx, hlink⟩ := ih
      have hlastD : last = lastD g rest := by
        rw [hch, getLast?_eq_lastD] at hlast
        exact (Option.some.injEq ..).mp hlast.symm
      refine ⟨⟨g, rest ++ [b], ?_, hgen⟩, ?_, ?_⟩
      · show bc.chain ++ [b] = g :: (rest ++ [b])
        rw [hch]
        rfl
      · show indexedFrom 0 (bc.chain ++ [b])
        exact indexedFrom_append hidx (by simpa using hbidx)
      · intro g' rest' hch'
        have hch2 : g :: (rest ++ [b]) = g' :: rest' := by
          rw [show (bc.chain ++ [b] = g :: (rest ++ [b])) from by rw [hch]; rfl]
            at hch'
          exact hch'
        injection hch2 with h1 h2
        rw [← h1, ← h2]
        refine linkedAfter_append (hlink g rest hch) ?_
        rw [hbprev, hlastD]

/-- Witness for C9: the invariant holds at a concrete freshly constructed
ledger. -/
theorem reachable_chain_invariant_witness :
    chainInvariant (Blockchain.init constHash 2 10 "t1" "t2") :=
  reachable_chain_invariant constHash _ (Reachable.init 2 10 "t1" "t2")
